import Mathlib

/-
Verification of the Wubi dictionary manager (src/start.py) against its
specification.  Words, codes and text lines are modelled as `List Char`
(Python strings iterated character by character); Python dicts are modelled
as insertion-ordered association lists, and the character-code table used by
the code generator as a lookup function `Char → Option (List Char)`.
-/

/-- Python string comparison, lexicographic by code point, as the Boolean
relation used by `sorted()` and `list.sort()` on strings. -/
def strLe : List Char → List Char → Bool
  | [], _ => true
  | _ :: _, [] => false
  | a :: xs, b :: ys => if a < b then true else if b < a then false else strLe xs ys

/-- Lookup in a Python dict modelled as an association list: the value of the
first binding of the key, if any. -/
def dictFind {β : Type} : List (List Char × β) → List Char → Option β
  | [], _ => none
  | (k, v) :: rest, key => if k = key then some v else dictFind rest key

/-- Python dict assignment `d[k] = v`: replace the value of the first binding
of `k`, or append a new binding at the end. -/
def dictSet {β : Type} : List (List Char × β) → List Char → β → List (List Char × β)
  | [], key, v => [(key, v)]
  | (k, w) :: rest, key, v =>
    if k = key then (k, v) :: rest else (k, w) :: dictSet rest key v

/-- The for-loop of `generate_word_code` (start.py:226-229): one pass over the
word collecting the code of every character present in the table and, in word
order, the characters absent from it. -/
def collect_codes (word : List Char) (danzi : Char → Option (List Char)) :
    List (List Char) × List Char :=
  match word with
  | [] => ([], [])
  | c :: rest =>
    let r := collect_codes rest danzi
    match danzi c with
    | some code => (code :: r.1, r.2)
    | none => (r.1, c :: r.2)

/-- generate_word_code (start.py:225-237).  Python `code[:2]` is `List.take 2`;
`code[0]` (the first character) is rendered as `List.take 1`, which coincides
with it whenever the code is nonempty — the only codes this program ever
stores, since both the loader and entry mode reject empty codes.
`char_codes[-1]` is the last element of the code list. -/
def generate_word_code (word : List Char) (danzi : Char → Option (List Char)) :
    Option (List Char) × List Char :=
  let r := collect_codes word danzi
  if r.2.isEmpty then
    match r.1 with
    | [] => (none, [])
    | [c0] => (some c0, [])
    | [c0, c1] => (some (c0.take 2 ++ c1.take 2), [])
    | [c0, c1, c2] => (some (c0.take 1 ++ c1.take 1 ++ c2.take 2), [])
    | [c0, c1, c2, c3] => (some (c0.take 1 ++ c1.take 1 ++ c2.take 1 ++ c3.take 1), [])
    | c0 :: c1 :: c2 :: c3 :: rest =>
      (some (c0.take 1 ++ c1.take 1 ++ c2.take 1 ++ (rest.getLastD c3).take 1), [])
  else (none, r.2)

/-- The sequence of per-character codes of a word; for a fully resolvable word
this is what the loop of `generate_word_code` collects. -/
def charCodes (word : List Char) (danzi : Char → Option (List Char)) : List (List Char) :=
  word.filterMap danzi

-- Import analyzer (analyze_dict_file, start.py:100-151).

inductive Delim
  | space
  | tab
  deriving DecidableEq

inductive FieldOrder
  | unknown
  | code_first
  | word_first
  deriving DecidableEq

inductive LineShape
  | single
  | multi
  deriving DecidableEq

/-- AnalysisResult: the dict built by analyze_dict_file; `struct` is the
source's "structure" key (single vs multi words per line), entries are the
(word, code) pairs. -/
structure Analysis where
  delimiter : Delim
  format : FieldOrder
  struct : LineShape
  entries : List (List Char × List Char)
  deriving DecidableEq

/-- is_code from start.py:121 — nonempty, all alphabetic, all lowercase.
Python uses `s.isalpha() and s.islower()`; on the repertoire handled here
(ASCII codes, CJK words, where no lowercase cased letter is non-ASCII) this
is exactly: nonempty and every character in a..z. -/
def is_code (s : List Char) : Bool := !s.isEmpty && s.all (fun c => 'a' ≤ c && c ≤ 'z')

/-- Python `line.split(sep)` for a one-character separator: cut at every
occurrence, keeping empty fields. -/
def splitChar (sep : Char) : List Char → List (List Char)
  | [] => [[]]
  | c :: rest =>
    match splitChar sep rest with
    | [] => [[]]
    | f :: fs => if c = sep then [] :: f :: fs else (c :: f) :: fs

def delimChar : Delim → Char
  | .space => ' '
  | .tab => '\t'

/-- Delimiter detection (start.py:118): tab if the first nonempty line
contains a tab character, space otherwise. -/
def detectDelim (lines : List (List Char)) : Delim :=
  if '\t' ∈ lines.headD [] then .tab else .space

/-- The vote cast by one sampled line (start.py:123-127). -/
def lineVote (d : Char) (line : List Char) : FieldOrder :=
  let parts := splitChar d line
  if parts.length < 2 then .unknown
  else if is_code (parts.headD []) && !is_code (parts.getD 1 []) then .code_first
  else if !is_code (parts.headD []) && is_code (parts.getD 1 []) then .word_first
  else .unknown

def code_first_votes (d : Char) (lines : List (List Char)) : Nat :=
  ((lines.take 100).filter (fun l => decide (lineVote d l = FieldOrder.code_first))).length

def word_first_votes (d : Char) (lines : List (List Char)) : Nat :=
  ((lines.take 100).filter (fun l => decide (lineVote d l = FieldOrder.word_first))).length

/-- code_first decoding of one line (start.py:139-144): field 0 is the code,
every remaining field a word sharing it, emitted only if the code field is
code-like; lines with fewer than 2 fields are skipped. -/
def lineEntriesCF (d : Char) (line : List Char) : List (List Char × List Char) :=
  let parts := splitChar d line
  if parts.length < 2 then []
  else if is_code (parts.headD []) then parts.tail.map (fun t => (t, parts.headD [])) else []

/-- word_first decoding of one line (start.py:146-148): only exactly-2-field
lines with a code-like field 1 are accepted; field 0 becomes the word. -/
def lineEntriesWF (d : Char) (line : List Char) : List (List Char × List Char) :=
  let parts := splitChar d line
  if parts.length < 2 then []
  else if decide (parts.length = 2) && is_code (parts.getD 1 []) then
    [(parts.headD [], parts.getD 1 [])]
  else []

/-- The "structure" flag (start.py:141): multi when some line has more than
one word after a code, i.e. more than 2 fields. -/
def detectShape (d : Char) (lines : List (List Char)) : LineShape :=
  if lines.any (fun l => decide (2 < (splitChar d l).length)) then .multi else .single

/-- analyze_dict_file (start.py:100-151) on the decoded, stripped, nonempty
lines of the import file.  `none` models the Python `return None` on an empty
file; encoding detection is the I/O layer and is not part of the model. -/
def analyze_dict_file (lines : List (List Char)) : Option Analysis :=
  if lines.isEmpty then none
  else if word_first_votes (delimChar (detectDelim lines)) lines <
      code_first_votes (delimChar (detectDelim lines)) lines then
    some ⟨detectDelim lines, .code_first, detectShape (delimChar (detectDelim lines)) lines,
          (lines.map (lineEntriesCF (delimChar (detectDelim lines)))).flatten⟩
  else if code_first_votes (delimChar (detectDelim lines)) lines <
      word_first_votes (delimChar (detectDelim lines)) lines then
    some ⟨detectDelim lines, .word_first, .single,
          (lines.map (lineEntriesWF (delimChar (detectDelim lines)))).flatten⟩
  else
    some ⟨detectDelim lines, .unknown, .single, []⟩

-- Merge engine (perform_upgrade, start.py:153-199).

/-- The replacement character table built in perform_upgrade (start.py:171-174):
among the length-1 terms, keep those whose code is longer than 1 letter;
repeated assignment to the same character lets the last occurrence win. -/
def new_danzi_dict (entries : List (List Char × List Char)) : List (List Char × List Char) :=
  (entries.filter (fun e => decide (e.1.length = 1))).foldl
    (fun d e => if 1 < e.2.length then dictSet d e.1 e.2 else d) []

/-- One step of the word-dictionary rebuild (start.py:192-195): create the
code's list if absent, then append the term unless already present. -/
def addTerm : List (List Char × List (List Char)) → List Char × List Char →
    List (List Char × List (List Char))
  | [], e => [(e.2, [e.1])]
  | (k, l) :: rest, e =>
    if k = e.2 then (k, if e.1 ∈ l then l else l ++ [e.1]) :: rest
    else (k, l) :: addTerm rest e

/-- The replacement word dictionary built in perform_upgrade (start.py:191-198):
rebuild from all entries with per-code dedupe, then sort each code's list. -/
def new_ciku_structured (entries : List (List Char × List Char)) :
    List (List Char × List (List Char)) :=
  (entries.foldl addTerm []).map (fun p => (p.1, p.2.mergeSort strLe))

-- Serialization (write_ciku_structured, start.py:81-89) and loading
-- (load_ciku_structured, start.py:55-66), modelled at the level of lines:
-- the file is the list of its newline-terminated lines.

/-- Whitespace for Python str.strip()/str.split() with no argument, on the
characters this tool's files can contain. -/
def isWs (c : Char) : Bool := c == ' ' || c == '\t' || c == '\n' || c == '\r'

/-- Helper for whitespace splitting, carrying the reversed current field. -/
def splitWsAux : List Char → List Char → List (List Char)
  | [], acc => if acc.isEmpty then [] else [acc.reverse]
  | c :: rest, acc =>
    if isWs c then
      if acc.isEmpty then splitWsAux rest [] else acc.reverse :: splitWsAux rest []
    else splitWsAux rest (c :: acc)

/-- Python `line.split()` with no argument: split on runs of whitespace,
dropping empty fields (start.py:62 does `line.strip().split()`; the strip is
subsumed by whitespace-mode splitting). -/
def splitWs (l : List Char) : List (List Char) := splitWsAux l []

/-- Python `' '.join` over `code :: words` — the line written for one code. -/
def joinSpace : List (List Char) → List Char
  | [] => []
  | [t] => t
  | t :: ts => t ++ ' ' :: joinSpace ts

/-- write_ciku_structured (start.py:81-89): one line per code, codes in
ascending order (Python sorts the (code, words) items; with each code bound
once this is the code order), words space-joined in stored order, codes with
empty lists omitted. -/
def write_ciku_structured (data : List (List Char × List (List Char))) : List (List Char) :=
  (data.mergeSort (fun p q => strLe p.1 q.1)).filterMap
    (fun p => if p.2.isEmpty then none else some (joinSpace (p.1 :: p.2)))

/-- load_ciku_structured (start.py:55-66): for each line with at least two
whitespace-separated fields, bind the first field to the remaining ones. -/
def load_ciku_structured (lines : List (List Char)) : List (List Char × List (List Char)) :=
  lines.foldl
    (fun d line =>
      if 2 ≤ (splitWs line).length then
        dictSet d ((splitWs line).headD []) (splitWs line).tail
      else d) []

-- Batch entry (batch_entry_mode, start.py:330-355).

/-- Appending in batch_entry_mode (start.py:350-351): create the code's list
if absent, then append the word unconditionally. -/
def appendTerm : List (List Char × List (List Char)) → List Char → List Char →
    List (List Char × List (List Char))
  | [], code, word => [(code, [word])]
  | (k, l) :: rest, code, word =>
    if k = code then (k, l ++ [word]) :: rest else (k, l) :: appendTerm rest code word

/-- ciku_flat (start.py:335): the words present anywhere in the dictionary,
computed once before the batch loop and never refreshed. -/
def ciku_flat (d : List (List Char × List (List Char))) : List (List Char) :=
  (d.map Prod.snd).flatten

/-- batch_entry_mode (start.py:330-355) on the nonempty lines of
batch_add.txt.  The interactive completion of missing characters is console
I/O; this models the run in which the operator adds no new character codes,
so a word whose code cannot be generated is skipped — on fully resolvable
words, the path taken here is the source's unique path. -/
def batch_entry_mode (ciku : List (List Char × List (List Char)))
    (danzi : Char → Option (List Char)) (words : List (List Char)) :
    List (List Char × List (List Char)) :=
  let flat := ciku_flat ciku
  words.foldl
    (fun d word =>
      if word ∈ flat then d
      else
        match (generate_word_code word danzi).1 with
        | none => d
        | some code => appendTerm d code word) ciku

/-- A concrete five-character code table used by witness theorems. -/
def wTable : Char → Option (List Char) := fun c =>
  if c = 'a' then some ['d', 'e', 'f'] else
  if c = 'b' then some ['g', 'h', 'i'] else
  if c = 'c' then some ['j', 'k', 'l'] else
  if c = 'd' then some ['m', 'n'] else
  if c = 'e' then some ['p', 'q', 'r', 's'] else none

-- Theorems.

/-- The collecting loop splits the word into the codes of its resolvable
characters and the list of unresolvable characters, both in word order. -/
theorem collect_codes_eq (word : List Char) (danzi : Char → Option (List Char)) :
    collect_codes word danzi =
      (word.filterMap danzi, word.filter (fun c => (danzi c).isNone)) := by
  induction word with
  | nil => rfl
  | cons c rest ih =>
    simp only [collect_codes, ih, List.filterMap_cons, List.filter_cons]
    cases h : danzi c <;> simp [h]

/-- A filterMap whose function succeeds on every element preserves length. -/
theorem length_filterMap_all_some {α β : Type} (f : α → Option β) (l : List α)
    (h : ∀ a ∈ l, (f a).isSome = true) : (l.filterMap f).length = l.length := by
  induction l with
  | nil => rfl
  | cons a l ih =>
    have ha := h a (List.mem_cons_self a l)
    cases hfa : f a with
    | none => rw [hfa] at ha; simp at ha
    | some b =>
      simp [List.filterMap_cons, hfa, ih (fun x hx => h x (List.mem_cons_of_mem a hx))]

/-- On a fully resolvable one-character word the full code passes through. -/
theorem generate_resolved_one (word : List Char) (danzi : Char → Option (List Char))
    (hall : word.filter (fun c => (danzi c).isNone) = []) (c0 : List Char)
    (hc : word.filterMap danzi = [c0]) :
    generate_word_code word danzi = (some c0, []) := by
  unfold generate_word_code
  rw [collect_codes_eq, hall, hc]
  rfl

/-- Truncation on a fully resolvable two-character word. -/
theorem generate_resolved_two (word : List Char) (danzi : Char → Option (List Char))
    (hall : word.filter (fun c => (danzi c).isNone) = []) (c0 c1 : List Char)
    (hc : word.filterMap danzi = [c0, c1]) :
    generate_word_code word danzi = (some (c0.take 2 ++ c1.take 2), []) := by
  unfold generate_word_code
  rw [collect_codes_eq, hall, hc]
  rfl

/-- Truncation on a fully resolvable three-character word. -/
theorem generate_resolved_three (word : List Char) (danzi : Char → Option (List Char))
    (hall : word.filter (fun c => (danzi c).isNone) = []) (c0 c1 c2 : List Char)
    (hc : word.filterMap danzi = [c0, c1, c2]) :
    generate_word_code word danzi = (some (c0.take 1 ++ c1.take 1 ++ c2.take 2), []) := by
  unfold generate_word_code
  rw [collect_codes_eq, hall, hc]
  rfl

/-- Truncation on a fully resolvable four-character word. -/
theorem generate_resolved_four (word : List Char) (danzi : Char → Option (List Char))
    (hall : word.filter (fun c => (danzi c).isNone) = []) (c0 c1 c2 c3 : List Char)
    (hc : word.filterMap danzi = [c0, c1, c2, c3]) :
    generate_word_code word danzi =
      (some (c0.take 1 ++ c1.take 1 ++ c2.take 1 ++ c3.take 1), []) := by
  unfold generate_word_code
  rw [collect_codes_eq, hall, hc]
  rfl

/-- Truncation on a fully resolvable word of more than four characters. -/
theorem generate_resolved_five (word : List Char) (danzi : Char → Option (List Char))
    (hall : word.filter (fun c => (danzi c).isNone) = []) (c0 c1 c2 c3 r : List Char)
    (rest : List (List Char)) (hc : word.filterMap danzi = c0 :: c1 :: c2 :: c3 :: r :: rest) :
    generate_word_code word danzi =
      (some (c0.take 1 ++ c1.take 1 ++ c2.take 1 ++ ((r :: rest).getLastD c3).take 1), []) := by
  unfold generate_word_code
  rw [collect_codes_eq, hall, hc]
  rfl

/-- A fully resolvable empty word yields no code and no missing characters. -/
theorem generate_resolved_zero (word : List Char) (danzi : Char → Option (List Char))
    (hall : word.filter (fun c => (danzi c).isNone) = [])
    (hc : word.filterMap danzi = []) :
    generate_word_code word danzi = (none, []) := by
  unfold generate_word_code
  rw [collect_codes_eq, hall, hc]
  rfl

/-- C1: for every word whose characters all resolve (to the nonempty codes the
program stores), generate_word_code follows the length-dependent truncation
rule — length 2: first 2 letters of code 0 and of code 1; length 3: first
letters of codes 0 and 1 and first 2 letters of code 2; length 4: the first
letter of each code; length above 4: first letters of codes 0, 1, 2 and of
the last character's code.  First letters are written List.take, which under
the nonemptiness hypothesis is exactly the one-letter Python slice. -/
theorem generate_word_code_truncation (word : List Char)
    (danzi : Char → Option (List Char))
    (hall : ∀ c ∈ word, (danzi c).isSome = true)
    (hne : ∀ c ∈ word, ∀ s, danzi c = some s → s ≠ []) :
    (word.length = 2 → (generate_word_code word danzi).1 =
      some (((charCodes word danzi).getD 0 []).take 2 ++
            ((charCodes word danzi).getD 1 []).take 2)) ∧
    (word.length = 3 → (generate_word_code word danzi).1 =
      some (((charCodes word danzi).getD 0 []).take 1 ++
            ((charCodes word danzi).getD 1 []).take 1 ++
            ((charCodes word danzi).getD 2 []).take 2)) ∧
    (word.length = 4 → (generate_word_code word danzi).1 =
      some (((charCodes word danzi).getD 0 []).take 1 ++
            ((charCodes word danzi).getD 1 []).take 1 ++
            ((charCodes word danzi).getD 2 []).take 1 ++
            ((charCodes word danzi).getD 3 []).take 1)) ∧
    (4 < word.length → (generate_word_code word danzi).1 =
      some (((charCodes word danzi).getD 0 []).take 1 ++
            ((charCodes word danzi).getD 1 []).take 1 ++
            ((charCodes word danzi).getD 2 []).take 1 ++
            ((charCodes word danzi).getLastD []).take 1)) := by
  have hf : word.filter (fun c => (danzi c).isNone) = [] := by
    rw [List.filter_eq_nil_iff]
    intro c hc
    have hs := hall c hc
    simp only [Option.isNone_iff_eq_none]
    intro hnone
    rw [hnone] at hs
    simp at hs
  have hlen : (charCodes word danzi).length = word.length :=
    length_filterMap_all_some danzi word hall
  refine ⟨fun h2 => ?_, fun h3 => ?_, fun h4 => ?_, fun h5 => ?_⟩
  · rw [h2] at hlen
    obtain ⟨c0, c1, hc⟩ := List.length_eq_two.mp hlen
    unfold charCodes at hc
    rw [generate_resolved_two word danzi hf c0 c1 hc]
    simp [charCodes, hc]
  · rw [h3] at hlen
    obtain ⟨c0, c1, c2, hc⟩ := List.length_eq_three.mp hlen
    unfold charCodes at hc
    rw [generate_resolved_three word danzi hf c0 c1 c2 hc]
    simp [charCodes, hc]
  · rw [h4] at hlen
    unfold charCodes at hlen
    rcases hc : word.filterMap danzi with _ | ⟨c0, _ | ⟨c1, _ | ⟨c2, _ | ⟨c3, rest⟩⟩⟩⟩ <;>
      rw [hc] at hlen <;> simp at hlen
    have hrest : rest = [] := by
      simpa using hlen
    subst hrest
    rw [generate_resolved_four word danzi hf c0 c1 c2 c3 hc]
    simp [charCodes, hc]
  · unfold charCodes at hlen
    rw [← hlen] at h5
    rcases hc : word.filterMap danzi with _ | ⟨c0, _ | ⟨c1, _ | ⟨c2, _ | ⟨c3, _ | ⟨r, rest⟩⟩⟩⟩⟩ <;>
      rw [hc] at h5 <;> simp at h5
    rw [generate_resolved_five word danzi hf c0 c1 c2 c3 r rest hc]
    simp [charCodes, hc, List.getLastD_cons, List.getLast?_cons]

/-- C2: on a word with at least one unresolvable character, generate_word_code
returns no code and the complete ordered list of unresolvable characters. -/
theorem generate_word_code_missing_chars (word : List Char)
    (danzi : Char → Option (List Char))
    (h : word.filter (fun c => (danzi c).isNone) ≠ []) :
    generate_word_code word danzi =
      (none, word.filter (fun c => (danzi c).isNone)) := by
  unfold generate_word_code
  rw [collect_codes_eq]
  simp only []
  rw [if_neg]
  simp [List.isEmpty_eq_false, h]

/-- C2 witness: a table resolving nothing, on the word "ab", returns no code
and both characters, in order. -/
theorem generate_word_code_missing_chars_witness :
    (['a', 'b'] : List Char).filter
        (fun c => ((fun _ => (none : Option (List Char))) c).isNone) ≠ [] ∧
    generate_word_code ['a', 'b'] (fun _ => none) = (none, ['a', 'b']) := by
  refine ⟨by decide, ?_⟩
  have h := generate_word_code_missing_chars ['a', 'b'] (fun _ => none) (by decide)
  rw [h]
  decide

/-- C3 fails as stated: on a single-character word, generate_word_code returns
the character's full table code unmodified, so a 5-letter table code produces
a 5-letter generated code. -/
theorem generate_word_code_over_four_cex :
    (generate_word_code ['x']
        (fun c => if c = 'x' then some ['a', 'b', 'c', 'd', 'e'] else none)).1 =
      some ['a', 'b', 'c', 'd', 'e'] ∧
    4 < (['a', 'b', 'c', 'd', 'e'] : List Char).length := by
  exact ⟨by decide, by decide⟩

/-- One pass of the collecting loop only gathers codes stored in the table. -/
theorem mem_filterMap_code (word : List Char) (danzi : Char → Option (List Char))
    (s : List Char) (h : s ∈ word.filterMap danzi) : ∃ c, danzi c = some s := by
  obtain ⟨c, _, hc⟩ := List.mem_filterMap.mp h
  exact ⟨c, hc⟩

/-- C3 (amended): whenever every code in the character-code table has at most
4 letters, a successful generate_word_code returns a code of at most 4
letters.  The restriction on the table is forced by the counterexample: a
length-1 word passes its character's full code through unmodified. -/
theorem generate_word_code_four_letter_max (word : List Char)
    (danzi : Char → Option (List Char))
    (hcodes : ∀ c s, danzi c = some s → s.length ≤ 4) :
    ∀ code, (generate_word_code word danzi).1 = some code → code.length ≤ 4 := by
  intro code h
  by_cases hf : word.filter (fun c => (danzi c).isNone) = []
  · rcases hc : word.filterMap danzi with _ | ⟨c0, _ | ⟨c1, _ | ⟨c2, _ | ⟨c3, _ | ⟨r, rest⟩⟩⟩⟩⟩
    · rw [generate_resolved_zero word danzi hf hc] at h
      simp at h
    · rw [generate_resolved_one word danzi hf c0 hc] at h
      have hcode : c0 = code := by simpa using h
      subst hcode
      obtain ⟨c, hcc⟩ := mem_filterMap_code word danzi c0 (by rw [hc]; simp)
      exact hcodes c c0 hcc
    · rw [generate_resolved_two word danzi hf c0 c1 hc] at h
      have hcode : c0.take 2 ++ c1.take 2 = code := by simpa using h
      rw [← hcode]
      have t0 := List.length_take_le 2 c0
      have t1 := List.length_take_le 2 c1
      simp only [List.length_append]
      omega
    · rw [generate_resolved_three word danzi hf c0 c1 c2 hc] at h
      have hcode : c0.take 1 ++ c1.take 1 ++ c2.take 2 = code := by simpa using h
      rw [← hcode]
      have t0 := List.length_take_le 1 c0
      have t1 := List.length_take_le 1 c1
      have t2 := List.length_take_le 2 c2
      simp only [List.length_append]
      omega
    · rw [generate_resolved_four word danzi hf c0 c1 c2 c3 hc] at h
      have hcode : c0.take 1 ++ c1.take 1 ++ c2.take 1 ++ c3.take 1 = code := by simpa using h
      rw [← hcode]
      have t0 := List.length_take_le 1 c0
      have t1 := List.length_take_le 1 c1
      have t2 := List.length_take_le 1 c2
      have t3 := List.length_take_le 1 c3
      simp only [List.length_append]
      omega
    · rw [generate_resolved_five word danzi hf c0 c1 c2 c3 r rest hc] at h
      have hcode : c0.take 1 ++ c1.take 1 ++ c2.take 1 ++ ((r :: rest).getLastD c3).take 1 = code := by
        simpa using h
      rw [← hcode]
      have t0 := List.length_take_le 1 c0
      have t1 := List.length_take_le 1 c1
      have t2 := List.length_take_le 1 c2
      have t3 := List.length_take_le 1 ((r :: rest).getLastD c3)
      simp only [List.length_append]
      omega
  · rw [generate_word_code_missing_chars word danzi hf] at h
    simp at h

/-- C3 witness: with a table of short codes the bound holds on a concrete
successful generation. -/
theorem generate_word_code_four_letter_max_witness :
    (generate_word_code ['a']
        (fun c => if c = 'a' then some ['x', 'y'] else none)).1 = some ['x', 'y'] ∧
    (['x', 'y'] : List Char).length ≤ 4 := by
  refine ⟨by decide, ?_⟩
  refine generate_word_code_four_letter_max ['a']
    (fun c => if c = 'a' then some ['x', 'y'] else none) ?_ ['x', 'y'] (by decide)
  intro c s hs
  have hs' : (if c = 'a' then some ['x', 'y'] else none) = some s := hs
  split_ifs at hs' with hc
  have hsv : s = ['x', 'y'] := by simpa using hs'.symm
  rw [hsv]
  decide

/-- C1 witness: a concrete 5-character word with every character resolving to
a nonempty code follows the above-4 branch of the truncation rule. -/
theorem generate_word_code_truncation_witness :
    (generate_word_code ['a', 'b', 'c', 'd', 'e'] wTable).1 =
      some (((charCodes ['a', 'b', 'c', 'd', 'e'] wTable).getD 0 []).take 1 ++
            ((charCodes ['a', 'b', 'c', 'd', 'e'] wTable).getD 1 []).take 1 ++
            ((charCodes ['a', 'b', 'c', 'd', 'e'] wTable).getD 2 []).take 1 ++
            ((charCodes ['a', 'b', 'c', 'd', 'e'] wTable).getLastD []).take 1) := by
  refine (generate_word_code_truncation ['a', 'b', 'c', 'd', 'e'] wTable ?_ ?_).2.2.2
    (by decide)
  · decide
  · intro c hc s hs
    unfold wTable at hs
    split_ifs at hs
    all_goals simp_all
    all_goals (subst hs; decide)

/-- C10: on the empty word, generate_word_code returns no code together with
an empty missing-character list, for every character-code table. -/
theorem generate_word_code_empty_word (danzi : Char → Option (List Char)) :
    generate_word_code [] danzi = (none, []) := rfl

/-- C4: on any nonempty input whose sampled lines cast equally many
code_first and word_first votes (including none on each side),
analyze_dict_file reports the format as undetected and emits no entries
instead of guessing. -/
theorem analyze_dict_file_tie_indeterminate (lines : List (List Char))
    (hne : lines ≠ [])
    (hv : code_first_votes (delimChar (detectDelim lines)) lines =
          word_first_votes (delimChar (detectDelim lines)) lines) :
    analyze_dict_file lines =
      some ⟨detectDelim lines, FieldOrder.unknown, LineShape.single, []⟩ := by
  unfold analyze_dict_file
  rw [if_neg (by simpa [List.isEmpty_iff] using hne)]
  rw [if_neg (by rw [hv]; exact lt_irrefl _)]
  rw [if_neg (by rw [hv]; exact lt_irrefl _)]

/-- C4 witness: a one-line file whose two fields are both code-like casts no
vote either way, and the analyzer reports an unknown format with no entries. -/
theorem analyze_dict_file_tie_indeterminate_witness :
    analyze_dict_file [['a', 'b', ' ', 'c', 'd']] =
      some ⟨Delim.space, FieldOrder.unknown, LineShape.single, []⟩ := by
  have h := analyze_dict_file_tie_indeterminate [['a', 'b', ' ', 'c', 'd']]
    (by decide) (by decide)
  rw [h]
  decide

/-- Pointwise form of word_first line decoding: an entry is emitted exactly
when the line splits into 2 fields whose second is code-like. -/
theorem lineEntriesWF_eq (d : Char) (line : List Char) :
    lineEntriesWF d line =
      if (splitChar d line).length = 2 ∧ is_code ((splitChar d line).getD 1 []) = true then
        [((splitChar d line).headD [], (splitChar d line).getD 1 [])]
      else [] := by
  unfold lineEntriesWF
  rcases Nat.lt_or_ge (splitChar d line).length 2 with hl | hl
  · have h2 : ¬ (splitChar d line).length = 2 := by omega
    simp [hl, h2]
  · have hl2 : ¬ (splitChar d line).length < 2 := by omega
    by_cases h2 : (splitChar d line).length = 2 <;> simp [hl2, h2]

/-- C9: when the analyzer detects word_first, its entries are exactly those
of the per-line rule — an entry per line if and only if the line splits into
exactly 2 fields and field 1 is solely lowercase alphabetic, pairing field 0
as the word with field 1 as the code, all other field counts skipped. -/
theorem analyze_word_first_entries (lines : List (List Char)) (a : Analysis)
    (h : analyze_dict_file lines = some a) (hfmt : a.format = FieldOrder.word_first) :
    a.entries =
      (lines.map (fun line =>
        if (splitChar (delimChar a.delimiter) line).length = 2 ∧
            is_code ((splitChar (delimChar a.delimiter) line).getD 1 []) = true then
          [((splitChar (delimChar a.delimiter) line).headD [],
            (splitChar (delimChar a.delimiter) line).getD 1 [])]
        else [])).flatten := by
  unfold analyze_dict_file at h
  split_ifs at h with h0 h1 h2
  · cases h
    simp at hfmt
  · cases h
    dsimp only
    congr 1
    refine List.map_congr_left (fun line _ => ?_)
    exact lineEntriesWF_eq (delimChar (detectDelim lines)) line
  · cases h
    simp at hfmt

/-- C9 witness: a one-line word_first file with a non-code first field and a
code-like second field produces exactly the pair given by the rule. -/
theorem analyze_word_first_entries_witness :
    (⟨Delim.space, FieldOrder.word_first, LineShape.single,
        [(['X', 'y'], ['a', 'b'])]⟩ : Analysis).entries =
      ([['X', 'y', ' ', 'a', 'b']].map (fun line =>
        if (splitChar (delimChar Delim.space) line).length = 2 ∧
            is_code ((splitChar (delimChar Delim.space) line).getD 1 []) = true then
          [((splitChar (delimChar Delim.space) line).headD [],
            (splitChar (delimChar Delim.space) line).getD 1 [])]
        else [])).flatten := by
  exact analyze_word_first_entries [['X', 'y', ' ', 'a', 'b']]
    ⟨Delim.space, FieldOrder.word_first, LineShape.single, [(['X', 'y'], ['a', 'b'])]⟩
    (by decide) rfl

/-- Looking up after a dict assignment reads back the assigned value for that
key and leaves every other key unchanged. -/
theorem dictFind_dictSet {β : Type} (d : List (List Char × β)) (k key : List Char) (v : β) :
    dictFind (dictSet d k v) key = if k = key then some v else dictFind d key := by
  induction d with
  | nil => simp [dictSet, dictFind]
  | cons p rest ih =>
    obtain ⟨k1, v1⟩ := p
    by_cases h1 : k1 = k
    · subst h1
      by_cases h2 : k1 = key <;> simp [dictSet, dictFind, h2]
    · by_cases h2 : k1 = key
      · subst h2
        have h3 : ¬ k = k1 := fun h => h1 h.symm
        simp [dictSet, dictFind, h1, h3]
      · simp [dictSet, dictFind, h1, h2, ih]

/-- Folding the guarded assignments of the character-table rebuild: the final
binding of a key is the last kept entry for it, if any. -/
theorem dictFind_foldl_kept (es : List (List Char × List Char))
    (d : List (List Char × List Char)) (key : List Char) :
    dictFind (es.foldl (fun d e => if 1 < e.2.length then dictSet d e.1 e.2 else d) d) key =
      match (es.filter (fun e => decide (e.1 = key) && decide (1 < e.2.length))).getLast? with
      | some e => some e.2
      | none => dictFind d key := by
  induction es generalizing d with
  | nil => rfl
  | cons e rest ih =>
    rw [List.foldl_cons, ih]
    by_cases h1 : 1 < e.2.length <;> by_cases h2 : e.1 = key
    · rw [if_pos h1, dictFind_dictSet, if_pos h2]
      rw [List.filter_cons_of_pos (by simp [h1, h2])]
      rw [List.getLast?_cons]
      cases (List.filter (fun e => decide (e.1 = key) && decide (1 < e.2.length)) rest).getLast? <;>
        simp
    · rw [if_pos h1, dictFind_dictSet, if_neg h2]
      rw [List.filter_cons_of_neg (by simp [h2])]
    · rw [if_neg h1]
      rw [List.filter_cons_of_neg (by simp [h1])]
    · rw [if_neg h1]
      rw [List.filter_cons_of_neg (by simp [h1])]

/-- C6: the replacement character table binds exactly the 1-character words
whose code is longer than 1 letter, each to the code of its last qualifying
occurrence in import order. -/
theorem new_danzi_dict_spec (entries : List (List Char × List Char)) (t : List Char) :
    dictFind (new_danzi_dict entries) t =
      ((entries.filter (fun e =>
          decide (e.1 = t) && decide (e.1.length = 1) && decide (1 < e.2.length))).getLast?).map
        Prod.snd := by
  unfold new_danzi_dict
  rw [dictFind_foldl_kept, List.filter_filter]
  rw [List.filter_congr (q := fun e =>
      decide (e.1 = t) && decide (e.1.length = 1) && decide (1 < e.2.length))
    (fun e _ => by
      cases h1 : decide (e.1 = t) <;> cases h2 : decide (e.1.length = 1) <;>
        cases h3 : decide (1 < e.2.length) <;> simp [h1, h2, h3])]
  cases (entries.filter (fun e =>
      decide (e.1 = t) && decide (e.1.length = 1) && decide (1 < e.2.length))).getLast? <;>
    simp [dictFind]

/-- strLe is total, as needed for sorting. -/
theorem strLe_total (a b : List Char) : (strLe a b || strLe b a) = true := by
  induction a generalizing b with
  | nil => simp [strLe]
  | cons x xs ih =>
    cases b with
    | nil => simp [strLe]
    | cons y ys =>
      simp only [strLe]
      rcases lt_trichotomy x y with h | h | h
      · simp [h]
      · subst h
        simp [lt_irrefl, ih ys]
      · simp [h, asymm h]

/-- strLe is transitive, as needed for sorting. -/
theorem strLe_trans (a b c : List Char) (hab : strLe a b = true) (hbc : strLe b c = true) :
    strLe a c = true := by
  induction a generalizing b c with
  | nil => simp [strLe]
  | cons x xs ih =>
    cases b with
    | nil => simp [strLe] at hab
    | cons y ys =>
      cases c with
      | nil => simp [strLe] at hbc
      | cons z zs =>
        simp only [strLe] at hab hbc ⊢
        rcases lt_trichotomy x y with h1 | h1 | h1
        · rcases lt_trichotomy y z with h2 | h2 | h2
          · rw [if_pos (lt_trans h1 h2)]
          · subst h2
            rw [if_pos h1]
          · rw [if_neg (asymm h2), if_pos h2] at hbc
            simp at hbc
        · subst h1
          rw [if_neg (lt_irrefl x), if_neg (lt_irrefl x)] at hab
          rcases lt_trichotomy x z with h2 | h2 | h2
          · rw [if_pos h2]
          · subst h2
            rw [if_neg (lt_irrefl x), if_neg (lt_irrefl x)] at hbc ⊢
            exact ih ys zs hab hbc
          · rw [if_neg (asymm h2), if_pos h2] at hbc
            simp at hbc
        · rw [if_neg (asymm h1), if_pos h1] at hab
          simp at hab

/-- The list a code is bound to after one more (term, code) entry. -/
def pushNew (o : Option (List (List Char))) (t : List Char) : List (List Char) :=
  match o with
  | none => [t]
  | some l => if t ∈ l then l else l ++ [t]

/-- Looking up a key after one addTerm step: the step only touches the
binding of the entry's code, turning it into pushNew of the previous one. -/
theorem dictFind_addTerm (d : List (List Char × List (List Char)))
    (e : List Char × List Char) (key : List Char) :
    dictFind (addTerm d e) key =
      if e.2 = key then some (pushNew (dictFind d e.2) e.1) else dictFind d key := by
  induction d with
  | nil =>
    by_cases h : e.2 = key <;> simp [addTerm, dictFind, pushNew, h]
  | cons p rest ih =>
    obtain ⟨k1, l1⟩ := p
    by_cases h1 : k1 = e.2
    · by_cases h2 : k1 = key
      · have he : e.2 = key := h1.symm.trans h2
        simp [addTerm, dictFind, pushNew, h1, h2, he]
      · have he : ¬ e.2 = key := fun h => h2 (h1.trans h)
        simp [addTerm, dictFind, h1, h2, he]
    · by_cases h2 : k1 = key
      · have he : ¬ e.2 = key := fun h => h1 (h2.trans h.symm)
        have hk : ¬ key = e.2 := fun h => he h.symm
        simp [addTerm, dictFind, h1, h2, he, hk]
      · simp [addTerm, dictFind, h1, h2, ih]

/-- Folding addTerm over the entries: each key's binding is the pushNew-fold
of the words paired with it, started from the earlier dictionary's binding. -/
theorem dictFind_foldl_addTerm (entries : List (List Char × List Char))
    (d : List (List Char × List (List Char))) (key : List Char) :
    dictFind (entries.foldl addTerm d) key =
      ((entries.filter (fun e => decide (e.2 = key))).map Prod.fst).foldl
        (fun o t => some (pushNew o t)) (dictFind d key) := by
  induction entries generalizing d with
  | nil => rfl
  | cons e rest ih =>
    rw [List.foldl_cons, ih]
    by_cases h : e.2 = key
    · rw [List.filter_cons_of_pos (by simp [h])]
      rw [List.map_cons, List.foldl_cons, dictFind_addTerm, if_pos h, h]
    · rw [List.filter_cons_of_neg (by simp [h])]
      rw [dictFind_addTerm, if_neg h]

/-- Folding pushNew from a duplicate-free start yields a duplicate-free list
whose members are the start's members plus the folded words. -/
theorem pushNew_foldl_some (ws : List (List Char)) (l0 : List (List Char)) (h0 : l0.Nodup) :
    ∃ l, ws.foldl (fun o t => some (pushNew o t)) (some l0) = some l ∧ l.Nodup ∧
      ∀ w, w ∈ l ↔ w ∈ l0 ∨ w ∈ ws := by
  induction ws generalizing l0 with
  | nil => exact ⟨l0, rfl, h0, by simp⟩
  | cons t ws ih =>
    have h1 : (pushNew (some l0) t).Nodup := by
      dsimp only [pushNew]
      split_ifs with h
      · exact h0
      · simp [List.nodup_append, h0, h]
    obtain ⟨l, hl, hn, hm⟩ := ih (pushNew (some l0) t) h1
    refine ⟨l, by simpa using hl, hn, fun w => ?_⟩
    rw [hm w]
    dsimp only [pushNew]
    split_ifs with h
    · simp only [List.mem_cons]
      constructor
      · rintro (hw | hw)
        · exact Or.inl hw
        · exact Or.inr (Or.inr hw)
      · rintro (hw | hw | hw)
        · exact Or.inl hw
        · subst hw
          exact Or.inl h
        · exact Or.inr hw
    · simp only [List.mem_append, List.mem_singleton, List.mem_cons]
      tauto

/-- Sorting each value of an association list leaves lookups as the sorted
previous values. -/
theorem dictFind_map_sort (d : List (List Char × List (List Char))) (key : List Char) :
    dictFind (d.map (fun p => (p.1, p.2.mergeSort strLe))) key =
      (dictFind d key).map (fun l => l.mergeSort strLe) := by
  induction d with
  | nil => rfl
  | cons p rest ih =>
    by_cases h : p.1 = key <;> simp [dictFind, h, ih]

/-- C5: every code bound in the rebuilt word dictionary is bound to the list
of exactly the words paired with it in the import, each word once, sorted
ascending by strLe. -/
theorem new_ciku_structured_spec (entries : List (List Char × List Char))
    (key : List Char) (l : List (List Char))
    (h : dictFind (new_ciku_structured entries) key = some l) :
    (∀ w, w ∈ l ↔ (w, key) ∈ entries) ∧ l.Nodup ∧
      l.Pairwise (fun a b => strLe a b = true) := by
  unfold new_ciku_structured at h
  rw [dictFind_map_sort] at h
  cases hf : dictFind (entries.foldl addTerm []) key with
  | none =>
    rw [hf] at h
    simp at h
  | some l1 =>
    rw [hf] at h
    have hsort : some (l1.mergeSort strLe) = some l := h
    have hL : l1.mergeSort strLe = l := Option.some.inj hsort
    have hchar := dictFind_foldl_addTerm entries [] key
    rw [hf] at hchar
    rcases hws : (entries.filter (fun e => decide (e.2 = key))).map Prod.fst with _ | ⟨t, ws⟩
    · rw [hws] at hchar
      have hno : (some l1 : Option (List (List Char))) = none := hchar
      exact Option.noConfusion hno
    · rw [hws] at hchar
      rw [List.foldl_cons] at hchar
      have hstart : pushNew (dictFind ([] : List (List Char × List (List Char))) key) t = [t] := rfl
      rw [hstart] at hchar
      obtain ⟨l2, hl2, hn2, hm2⟩ := pushNew_foldl_some ws [t] (by simp)
      rw [hl2] at hchar
      have hl12 : l1 = l2 := Option.some.inj hchar
      subst hl12
      have hmem : ∀ w, w ∈ l1 ↔ (w, key) ∈ entries := by
        intro w
        rw [hm2 w]
        have hws2 : w ∈ t :: ws ↔ (w, key) ∈ entries := by
          rw [← hws]
          constructor
          · intro hw
            obtain ⟨e, he, hew⟩ := List.mem_map.mp hw
            have := List.mem_filter.mp he
            obtain ⟨he1, he2⟩ := this
            have hekey : e.2 = key := by simpa using he2
            have : e = (w, key) := by
              obtain ⟨e1, e2⟩ := e
              simp only at hew hekey
              rw [hew, hekey]
            rw [← this]
            exact he1
          · intro hw
            refine List.mem_map.mpr ⟨(w, key), List.mem_filter.mpr ⟨hw, by simp⟩, rfl⟩
        rw [← hws2]
        simp
      subst hL
      refine ⟨?_, ?_, ?_⟩
      · intro w
        rw [List.mem_mergeSort]
        exact hmem w
      · exact (List.mergeSort_perm l1 strLe).nodup_iff.mpr hn2
      · exact @List.sorted_mergeSort _ strLe strLe_trans strLe_total l1

/-- C5 witness: the duplicated import pair (word ab, code xy) yields a single
word under xy, containing exactly the imported word. -/
theorem new_ciku_structured_spec_witness :
    ((['a', 'b'] : List Char) ∈ ([['a', 'b']] : List (List Char)) ∧
      ((['a', 'b'], ['x', 'y']) : List Char × List Char) ∈
        ([(['a', 'b'], ['x', 'y']), (['a', 'b'], ['x', 'y'])] :
          List (List Char × List Char))) ∧
    ([['a', 'b']] : List (List Char)).Nodup := by
  have h := new_ciku_structured_spec
    [(['a', 'b'], ['x', 'y']), (['a', 'b'], ['x', 'y'])] ['x', 'y'] [['a', 'b']]
    (by simp [new_ciku_structured, addTerm, dictFind, List.mergeSort_singleton])
  exact ⟨⟨(h.1 ['a', 'b']).mpr (by decide), by decide⟩, h.2.1⟩

/-- C7 fails in the code: batch_entry_mode snapshots the existing-word set
once, before its loop, and never refreshes it, so a word occurring twice in
the batch file is appended twice to the same code's list, violating the
no-duplicate invariant. -/
theorem batch_entry_mode_duplicate_bug :
    batch_entry_mode [] wTable [['a', 'b'], ['a', 'b']] =
      [(['d', 'e', 'g', 'h'], [['a', 'b'], ['a', 'b']])] ∧
    ¬ ([['a', 'b'], ['a', 'b']] : List (List Char)).Nodup := by
  exact ⟨by decide, by decide⟩

-- Round trip of the word dictionary (C8).

/-- Leading non-whitespace characters accumulate into the current field. -/
theorem splitWsAux_append (t : List Char) :
    ∀ (rest acc : List Char), (∀ c ∈ t, isWs c = false) →
      splitWsAux (t ++ rest) acc = splitWsAux rest (t.reverse ++ acc) := by
  induction t with
  | nil =>
    intro rest acc _
    simp
  | cons c t ih =>
    intro rest acc hws
    have hc : isWs c = false := hws c (List.mem_cons_self c t)
    simp only [List.cons_append, splitWsAux, hc]
    rw [if_neg (by simp [hc])]
    rw [show splitWsAux (t.append rest) (c :: acc) =
        splitWsAux rest (t.reverse ++ (c :: acc)) from
      ih rest (c :: acc) (fun x hx => hws x (List.mem_cons_of_mem c hx))]
    simp [List.reverse_cons, List.append_assoc]

/-- Splitting on whitespace undoes the space join of nonempty,
whitespace-free tokens. -/
theorem splitWs_joinSpace (ts : List (List Char))
    (hne : ∀ t ∈ ts, t ≠ []) (hws : ∀ t ∈ ts, ∀ c ∈ t, isWs c = false) :
    splitWs (joinSpace ts) = ts := by
  induction ts with
  | nil => rfl
  | cons t ts ih =>
    cases ts with
    | nil =>
      have ht := hne t (by simp)
      have hwt := hws t (by simp)
      show splitWsAux t [] = [t]
      have h1 : splitWsAux (t ++ []) [] = splitWsAux [] (t.reverse ++ []) :=
        splitWsAux_append t [] [] hwt
      rw [List.append_nil] at h1
      rw [h1, List.append_nil]
      simp [splitWsAux, List.isEmpty_eq_false, ht]
    | cons t2 ts2 =>
      have ht := hne t (by simp)
      have hwt := hws t (by simp)
      show splitWsAux (t ++ ' ' :: joinSpace (t2 :: ts2)) [] = t :: t2 :: ts2
      rw [splitWsAux_append t (' ' :: joinSpace (t2 :: ts2)) [] hwt, List.append_nil]
      have hrev : t.reverse.isEmpty = false := by
        simp [List.isEmpty_eq_false, ht]
      simp only [splitWsAux]
      rw [if_pos (show isWs ' ' = true from rfl), if_neg (by simp [hrev])]
      rw [List.reverse_reverse]
      have ih2 := ih (fun x hx => hne x (List.mem_cons_of_mem t hx))
        (fun x hx => hws x (List.mem_cons_of_mem t hx))
      unfold splitWs at ih2
      rw [ih2]

/-- With every word list nonempty the line filter of the serializer never
drops an entry. -/
theorem filterMap_line_eq_map (d : List (List Char × List (List Char)))
    (h : ∀ p ∈ d, p.2.isEmpty = false) :
    d.filterMap (fun p => if p.2.isEmpty then none else some (joinSpace (p.1 :: p.2))) =
      d.map (fun p => joinSpace (p.1 :: p.2)) := by
  induction d with
  | nil => rfl
  | cons p rest ih =>
    have hp := h p (List.mem_cons_self p rest)
    rw [List.filterMap_cons, List.map_cons]
    rw [ih (fun q hq => h q (List.mem_cons_of_mem p hq))]
    simp [hp]

/-- Loading the serialized lines of an association list replays them as
dict assignments. -/
theorem load_foldl_lines (l : List (List Char × List (List Char)))
    (d : List (List Char × List (List Char)))
    (h : ∀ p ∈ l, p.1 ≠ [] ∧ (∀ c ∈ p.1, isWs c = false) ∧ p.2 ≠ [] ∧
        ∀ w ∈ p.2, w ≠ [] ∧ ∀ c ∈ w, isWs c = false) :
    (l.map (fun p => joinSpace (p.1 :: p.2))).foldl
      (fun d line =>
        if 2 ≤ (splitWs line).length then
          dictSet d ((splitWs line).headD []) (splitWs line).tail
        else d) d =
      l.foldl (fun a p => dictSet a p.1 p.2) d := by
  induction l generalizing d with
  | nil => rfl
  | cons p rest ih =>
    obtain ⟨hp1, hp2, hp3, hp4⟩ := h p (List.mem_cons_self p rest)
    have hsplit : splitWs (joinSpace (p.1 :: p.2)) = p.1 :: p.2 := by
      apply splitWs_joinSpace
      · intro x hx
        rcases List.mem_cons.mp hx with hx1 | hx2
        · rw [hx1]; exact hp1
        · exact (hp4 x hx2).1
      · intro x hx
        rcases List.mem_cons.mp hx with hx1 | hx2
        · rw [hx1]; exact hp2
        · exact (hp4 x hx2).2
    rw [List.map_cons, List.foldl_cons, List.foldl_cons]
    rw [hsplit]
    have hlen : 2 ≤ (p.1 :: p.2).length := by
      simp only [List.length_cons]
      have := List.length_pos.mpr hp3
      omega
    rw [if_pos hlen]
    simp only [List.headD_cons, List.tail_cons]
    exact ih (dictSet d p.1 p.2) (fun q hq => h q (List.mem_cons_of_mem p hq))

/-- An assignment fold leaves untouched every key not bound in the list. -/
theorem dictFind_foldl_dictSet_not_mem (l : List (List Char × List (List Char)))
    (d : List (List Char × List (List Char))) (key : List Char)
    (h : key ∉ l.map Prod.fst) :
    dictFind (l.foldl (fun a p => dictSet a p.1 p.2) d) key = dictFind d key := by
  induction l generalizing d with
  | nil => rfl
  | cons p rest ih =>
    simp only [List.map_cons, List.mem_cons] at h
    push_neg at h
    obtain ⟨h1, h2⟩ := h
    rw [List.foldl_cons, ih _ h2, dictFind_dictSet, if_neg (fun hh => h1 hh.symm)]

/-- Replaying a duplicate-key-free association list as dict assignments
reproduces its lookups. -/
theorem dictFind_foldl_dictSet (l : List (List Char × List (List Char)))
    (d : List (List Char × List (List Char))) (key : List Char)
    (hnd : (l.map Prod.fst).Nodup) :
    dictFind (l.foldl (fun a p => dictSet a p.1 p.2) d) key =
      match dictFind l key with
      | some v => some v
      | none => dictFind d key := by
  induction l generalizing d with
  | nil => rfl
  | cons p rest ih =>
    simp only [List.map_cons, List.nodup_cons] at hnd
    obtain ⟨hp, hrest⟩ := hnd
    rw [List.foldl_cons]
    by_cases h : p.1 = key
    · have hnot : key ∉ rest.map Prod.fst := by rw [← h]; exact hp
      rw [dictFind_foldl_dictSet_not_mem rest _ key hnot]
      rw [dictFind_dictSet, if_pos h]
      simp [dictFind, h]
    · rw [ih _ hrest, dictFind_dictSet, if_neg h]
      simp [dictFind, h]

/-- Lookup reads the first binding of the key. -/
theorem dictFind_eq_filter_head {β : Type} (d : List (List Char × β)) (key : List Char) :
    dictFind d key = ((d.filter (fun p => decide (p.1 = key))).head?).map Prod.snd := by
  induction d with
  | nil => rfl
  | cons p rest ih =>
    by_cases h : p.1 = key <;> simp [dictFind, List.filter_cons, h, ih]

/-- With unique keys, at most one binding matches any key. -/
theorem filter_key_length_le_one {β : Type} (d : List (List Char × β)) (key : List Char)
    (hnd : (d.map Prod.fst).Nodup) :
    (d.filter (fun p => decide (p.1 = key))).length ≤ 1 := by
  induction d with
  | nil => simp
  | cons p rest ih =>
    simp only [List.map_cons, List.nodup_cons] at hnd
    obtain ⟨hp, hrest⟩ := hnd
    by_cases h : p.1 = key
    · rw [List.filter_cons_of_pos (by simp [h])]
      have hz : (rest.filter (fun p => decide (p.1 = key))).length = 0 := by
        rw [List.length_eq_zero, List.filter_eq_nil_iff]
        intro q hq
        simp only [decide_eq_true_eq]
        intro hqk
        exact hp (List.mem_map.mpr ⟨q, hq, hqk.trans h.symm⟩)
      simp [hz]
    · rw [List.filter_cons_of_neg (by simp [h])]
      exact ih hrest

/-- Lookup is invariant under permutation when keys are unique. -/
theorem dictFind_perm {β : Type} (d1 d2 : List (List Char × β)) (key : List Char)
    (hperm : d1.Perm d2) (hnd : (d1.map Prod.fst).Nodup) :
    dictFind d1 key = dictFind d2 key := by
  rw [dictFind_eq_filter_head, dictFind_eq_filter_head]
  have hf : (d1.filter (fun p => decide (p.1 = key))).Perm
      (d2.filter (fun p => decide (p.1 = key))) := hperm.filter _
  have h1 := filter_key_length_le_one d1 key hnd
  have heq : d1.filter (fun p => decide (p.1 = key)) =
      d2.filter (fun p => decide (p.1 = key)) := by
    rcases hx : d1.filter (fun p => decide (p.1 = key)) with _ | ⟨a, rest⟩
    · rw [hx] at hf
      rw [hx]
      exact (List.perm_nil.mp hf.symm).symm
    · rw [hx] at hf h1
      simp only [List.length_cons] at h1
      have hrest : rest = [] := by
        rw [← List.length_eq_zero]
        omega
      subst hrest
      rw [hx]
      exact (List.perm_singleton.mp hf.symm).symm
  rw [heq]

/-- C8: serializing a word dictionary whose codes are unique, nonempty and
whitespace-free, whose words are nonempty and whitespace-free, and whose
lists are all nonempty, then loading the resulting lines, reproduces every
lookup: same codes, same word lists, same order inside each list. -/
theorem ciku_round_trip (d : List (List Char × List (List Char)))
    (hkeys : (d.map Prod.fst).Nodup)
    (hcode : ∀ p ∈ d, p.1 ≠ [] ∧ ∀ c ∈ p.1, isWs c = false)
    (hword : ∀ p ∈ d, ∀ w ∈ p.2, w ≠ [] ∧ ∀ c ∈ w, isWs c = false)
    (hlist : ∀ p ∈ d, p.2 ≠ []) :
    ∀ key, dictFind (load_ciku_structured (write_ciku_structured d)) key =
      dictFind d key := by
  intro key
  have hperm : (d.mergeSort (fun p q => strLe p.1 q.1)).Perm d := List.mergeSort_perm d _
  have hmem : ∀ p ∈ d.mergeSort (fun p q => strLe p.1 q.1), p ∈ d :=
    fun p hp => List.mem_mergeSort.mp hp
  unfold write_ciku_structured load_ciku_structured
  rw [filterMap_line_eq_map _ (fun p hp => by
    rw [List.isEmpty_eq_false]
    exact hlist p (hmem p hp))]
  rw [load_foldl_lines _ [] (fun p hp => ⟨(hcode p (hmem p hp)).1, (hcode p (hmem p hp)).2,
    hlist p (hmem p hp), hword p (hmem p hp)⟩)]
  have hndsort : ((d.mergeSort (fun p q => strLe p.1 q.1)).map Prod.fst).Nodup :=
    (hperm.map Prod.fst).nodup_iff.mpr hkeys
  rw [dictFind_foldl_dictSet _ [] key hndsort]
  rw [dictFind_perm _ d key hperm hndsort]
  cases hcase : dictFind d key <;> rfl

/-- C8 witness: a two-code dictionary with unsorted codes round-trips on a
concrete lookup. -/
theorem ciku_round_trip_witness :
    dictFind (load_ciku_structured (write_ciku_structured
        [(['b'], [['w', 'x'], ['y']]), (['a'], [['z', 'z']])])) ['b'] =
      dictFind [(['b'], [['w', 'x'], ['y']]), (['a'], [['z', 'z']])] ['b'] := by
  exact ciku_round_trip [(['b'], [['w', 'x'], ['y']]), (['a'], [['z', 'z']])]
    (by decide) (by decide) (by decide) (by decide) ['b']
